import Mathlib

/-!
# Verification of the link-annotation core of `newsletter.py`

A shallow embedding, over `List Char`, of the three reusable text
functions of the repository:

* `process_content_pdf` (source lines 114-129): two regex passes over a
  content string, producing anchor markup for the PDF renderer;
* `add_text_with_links` (source lines 161-184): the same two passes for
  the DOCX renderer, emitting plain runs and hyperlink runs into a
  paragraph (modelled as a `List Span` accumulator);
* `text_to_bullets` (source lines 131-135).

The regexes are embedded by hand with Python `re` semantics: leftmost
match, alternatives tried in order, greedy quantifiers with the
backtracking they actually perform (worked out where it is forced, e.g.
a character-class run followed by a character outside the class never
backtracks).  Word and whitespace classes are modelled for ASCII input,
matching the explicit ASCII classes of the source patterns.

All scanners are structural or fuel-based (fuel one more than the input
length, always sufficient since every match consumes at least one
character), so every definition evaluates by kernel reduction.
-/

set_option maxRecDepth 8192
set_option maxHeartbeats 1000000

/-! ## Character classes of the source regexes -/

/-- Python `\s` (ASCII): the whitespace characters `str.strip` and `\S`
recognise. -/
def isSpaceChar (c : Char) : Bool :=
  c = ' ' || c = '\t' || c = '\n' || c = '\r' || c = '\x0b' || c = '\x0c'

/-- Python `\w` (ASCII), used by the `\b` assertion of the bare-email
alternative. -/
def isWordChar (c : Char) : Bool := c.isAlpha || c.isDigit || c = '_'

/-- The class `[A-Za-z0-9._%+-]` of the email local part. -/
def isLocalChar (c : Char) : Bool :=
  c.isAlpha || c.isDigit || c = '.' || c = '_' || c = '%' || c = '+' || c = '-'

/-- The class `[A-Za-z0-9.-]` of the email domain. -/
def isDomainChar (c : Char) : Bool := c.isAlpha || c.isDigit || c = '.' || c = '-'

/-- The class `[A-Z|a-z]` of the TLD: letters and, literally, the pipe
character (the source writes the class with a `|` inside). -/
def isTldChar (c : Char) : Bool := c.isAlpha || c = '|'

/-! ## Spans: the runs a paragraph receives -/

/-- A run emitted into a DOCX paragraph: a plain text run
(`paragraph.add_run`) or a hyperlink (`add_hyperlink`, source lines
137-159) with its display text and its target address. -/
inductive Span where
  | plain (text : List Char)
  | link (text target : List Char)
deriving DecidableEq, Repr

/-- The display text of a span. -/
def spanText : Span → List Char
  | Span.plain t => t
  | Span.link t _ => t

/-- Concatenation of the display texts of a span sequence. -/
def concatText (sp : List Span) : List Char := (sp.map spanText).flatten

/-- Whether a span is a hyperlink. -/
def isLink : Span → Bool
  | Span.plain _ => false
  | Span.link _ _ => true

/-- The (target, display text) pairs of the hyperlinks of a span
sequence, in order. -/
def spanLinks : List Span → List (List Char × List Char)
  | [] => []
  | Span.plain _ :: r => spanLinks r
  | Span.link txt tgt :: r => (tgt, txt) :: spanLinks r

/-- `add_hyperlink`'s display-text choice (source lines 138-139): an
empty display text falls back to the url. -/
def dispOf (txt url : List Char) : List Char := if txt = [] then url else txt

/-! ## Pass 1: the markdown-link regex

The pattern compiled at source lines 115 and 162 is
`\[([^\]]+)\]\(([^)]+)\)`.  Both character-class runs are greedy but
never backtrack: the run is the maximal run of characters outside the
class's excluded character, and the following literal must be exactly
the next character. -/

/-- Match the markdown-link pattern at the start of the input.  Returns
(label, target, rest) on success. -/
def mdMatchHere : List Char → Option (List Char × List Char × List Char)
  | [] => none
  | c :: cs =>
    if c = '[' then
      let lbl := cs.takeWhile (fun c => c ≠ ']')
      let rest := cs.dropWhile (fun c => c ≠ ']')
      if lbl = [] then none
      else if rest.take 2 = [']', '('] then
        let cs2 := rest.drop 2
        let tgt := cs2.takeWhile (fun c => c ≠ ')')
        let rest2 := cs2.dropWhile (fun c => c ≠ ')')
        if tgt = [] then none
        else if rest2.take 1 = [')'] then some (lbl, tgt, rest2.drop 1)
        else none
      else none
    else none

/-- Leftmost markdown-link match: (text before the match, label, target,
rest after the match). -/
def findMd : List Char → Option (List Char × List Char × List Char × List Char)
  | [] => none
  | c :: cs =>
    match mdMatchHere (c :: cs) with
    | some (l, t, r) => some ([], l, t, r)
    | none =>
      match findMd cs with
      | some (p, l, t, r) => some (c :: p, l, t, r)
      | none => none

/-- All non-overlapping markdown matches (as Python `finditer`/`re.sub`
find them), fuel-driven; also returns the text after the last match. -/
def mdMatchesF : Nat → List Char → List (List Char × List Char × List Char) × List Char
  | 0, s => ([], s)
  | f + 1, s =>
    match findMd s with
    | none => ([], s)
    | some (p, l, t, r) =>
      let pr := mdMatchesF f r
      ((p, l, t) :: pr.1, pr.2)

/-- All markdown matches of the input (each as (preceding text, label,
target)) and the residue after the last one. -/
def mdMatches (s : List Char) : List (List Char × List Char × List Char) × List Char :=
  mdMatchesF (s.length + 1) s

/-- The input with every markdown match `[label](target)` replaced by
its label: the display text the two renderers keep for such a match. -/
def mdStrip (s : List Char) : List Char :=
  ((mdMatches s).1.map (fun plt => plt.1 ++ plt.2.1)).flatten ++ (mdMatches s).2

/-! ## Pass 2: the bare-link regex

The pattern of source lines 117 and 173:
`(https?://\S+|mailto:\S+|\b[A-Za-z0-9._%+-]+@[A-Za-z0-9.-]+\.[A-Z|a-z]{2,})`,
with, in the PDF variant only, the lookbehind `(?<!href=")` and the
lookahead `(?!")` around the group.  The lookahead can only bite on the
TLD run (a maximal `\S+` run is always followed by whitespace or the
end, never by a quote), where greedy backtracking gives back exactly one
character when possible. -/

/-- `https?://\S+`: the optional `s` is forced by the next character. -/
def matchHttp (s : List Char) : Option (List Char × List Char) :=
  if List.isPrefixOf "https://".toList s then
    let r := s.drop 8
    let run := r.takeWhile (fun c => !isSpaceChar c)
    if run = [] then none
    else some ("https://".toList ++ run, r.dropWhile (fun c => !isSpaceChar c))
  else if List.isPrefixOf "http://".toList s then
    let r := s.drop 7
    let run := r.takeWhile (fun c => !isSpaceChar c)
    if run = [] then none
    else some ("http://".toList ++ run, r.dropWhile (fun c => !isSpaceChar c))
  else none

/-- `mailto:\S+`. -/
def matchMailto (s : List Char) : Option (List Char × List Char) :=
  if List.isPrefixOf "mailto:".toList s then
    let r := s.drop 7
    let run := r.takeWhile (fun c => !isSpaceChar c)
    if run = [] then none
    else some ("mailto:".toList ++ run, r.dropWhile (fun c => !isSpaceChar c))
  else none

/-- The TLD run `[A-Z|a-z]{2,}`: maximal run, at least two characters.
With `pdf = true` the trailing lookahead `(?!")` applies: a quote right
after the run forces giving back one character (possible only when the
run has at least three). -/
def tldTake (pdf : Bool) (r : List Char) : Option (List Char × List Char) :=
  let t := r.takeWhile isTldChar
  let rest := r.dropWhile isTldChar
  if t.length < 2 then none
  else if pdf && (rest.head? == some '"') then
    if 3 ≤ t.length then some (t.take (t.length - 1), t.drop (t.length - 1) ++ rest)
    else none
  else some (t, rest)

/-- The greedy domain: try the longest prefix of the maximal
`[A-Za-z0-9.-]` run first (length `k` counts down), require a literal
`.` right after it, then the TLD. -/
def emailDomain (pdf : Bool) : Nat → List Char → Option (List Char × List Char)
  | 0, _ => none
  | k + 1, r =>
    if (r.drop (k + 1)).take 1 = ['.'] then
      match tldTake pdf (r.drop (k + 2)) with
      | some (t, rest) => some (r.take (k + 1) ++ '.' :: t, rest)
      | none => emailDomain pdf k r
    else emailDomain pdf k r

/-- The `\b` assertion between the previous character and the current
one (start of the scanned string counts as a non-word side). -/
def boundaryOk (prev : Option Char) (c : Char) : Bool :=
  (match prev with
   | none => false
   | some p => isWordChar p) != isWordChar c

/-- The bare-email alternative, at the start of the input.  The local
part never backtracks (`@` is outside its class). -/
def matchEmail (pdf : Bool) (prev : Option Char) : List Char → Option (List Char × List Char)
  | [] => none
  | c :: cs =>
    if !boundaryOk prev c then none
    else
      let s := c :: cs
      let lo := s.takeWhile isLocalChar
      let rest := s.dropWhile isLocalChar
      if lo = [] then none
      else if rest.take 1 = ['@'] then
        let r := rest.drop 1
        match emailDomain pdf (r.takeWhile isDomainChar).length r with
        | some (dom, r2) => some (lo ++ '@' :: dom, r2)
        | none => none
      else none

/-- `href="` reversed: what the PDF lookbehind `(?<!href=")` checks
against the six characters before the match position. -/
def hrefRev : List Char := ['"', '=', 'f', 'e', 'r', 'h']

/-- One attempt of the whole alternation at the current position.
`rctx` is the already-scanned text, reversed (its head is the previous
character). -/
def urlHere (pdf : Bool) (rctx : List Char) (s : List Char) : Option (List Char × List Char) :=
  if pdf && (rctx.take 6 == hrefRev) then none
  else
    match matchHttp s with
    | some mr => some mr
    | none =>
      match matchMailto s with
      | some mr => some mr
      | none => matchEmail pdf rctx.head? s

/-- Leftmost bare-link match: (text before the match, match, rest). -/
def findUrl (pdf : Bool) : List Char → List Char → Option (List Char × List Char × List Char)
  | _, [] => none
  | rctx, c :: cs =>
    match urlHere pdf rctx (c :: cs) with
    | some (m, r) => some ([], m, r)
    | none =>
      match findUrl pdf (c :: rctx) cs with
      | some (p, m, r) => some (c :: p, m, r)
      | none => none

/-- All non-overlapping bare-link matches, fuel-driven, threading the
reversed scanned-text context; also returns the text after the last
match. -/
def urlMatchesF (pdf : Bool) : Nat → List Char → List Char → List (List Char × List Char) × List Char
  | 0, _, s => ([], s)
  | f + 1, rctx, s =>
    match findUrl pdf rctx s with
    | none => ([], s)
    | some (p, m, r) =>
      let pr := urlMatchesF pdf f ((p ++ m).reverse ++ rctx) r
      ((p, m) :: pr.1, pr.2)

/-- All bare-link matches of the input (each as (preceding text, match))
and the trailing text. -/
def urlMatches (pdf : Bool) (rctx s : List Char) : List (List Char × List Char) × List Char :=
  urlMatchesF pdf (s.length + 1) rctx s

/-- The `mailto:` adjustment of source lines 125-126 and 179-180: a
match containing `@` and not already starting with `mailto:` gets the
scheme prepended. -/
def adjustMailto (m : List Char) : List Char :=
  if m.contains '@' && !(List.isPrefixOf "mailto:".toList m) then "mailto:".toList ++ m
  else m

/-! ## The DOCX path: `add_text_with_links` -/

/-- `paragraph.add_run(t)`: appends a plain run, empty text included. -/
def addRun (para : List Span) (t : List Char) : List Span := para ++ [Span.plain t]

/-- `add_hyperlink(paragraph, url, text)` (source lines 137-159) at the
span level: appends one hyperlink run. -/
def add_hyperlink (para : List Span) (url txt : List Char) : List Span :=
  para ++ [Span.link (dispOf txt url) url]

/-- `add_text_with_links(paragraph, text)` (source lines 161-184): pass
1 walks the markdown matches of `text`, emitting the plain run before
each and a hyperlink with the label as display text and the target as
url; pass 2 walks the bare-link matches of the text after the last
markdown match only (`remaining_text = text[last_end:]`), emitting the
plain run before each and a hyperlink with the `mailto:`-adjusted match
as url and the literal match as display text; a final plain run holds
whatever follows the last bare match. -/
def add_text_with_links (para : List Span) (text : List Char) : List Span :=
  let md := mdMatches text
  let para1 := md.1.foldl (fun pa plt => add_hyperlink (addRun pa plt.1) plt.2.2 plt.2.1) para
  let um := urlMatches false [] md.2
  let para2 := um.1.foldl (fun pa pm => add_hyperlink (addRun pa pm.1) (adjustMailto pm.2) pm.2) para1
  addRun para2 um.2

/-- The span sequence `add_text_with_links` appends to an empty
paragraph. -/
def docxSpans (text : List Char) : List Span := add_text_with_links [] text

/-- The spans pass 1 contributes, written as a flat list. -/
def mdRender (ms : List (List Char × List Char × List Char)) : List Span :=
  (ms.map (fun plt => [Span.plain plt.1, Span.link (dispOf plt.2.1 plt.2.2) plt.2.2])).flatten

/-- The spans pass 2 contributes, written as a flat list. -/
def urlRender (us : List (List Char × List Char)) : List Span :=
  (us.map (fun pm =>
    [Span.plain pm.1, Span.link (dispOf pm.2 (adjustMailto pm.2)) (adjustMailto pm.2)])).flatten

/-! ## The PDF path: `process_content_pdf` -/

/-- The opening of the anchor markup both `re.sub` replacements build. -/
def anchorOpen : List Char := "<a href=\"".toList

/-- The middle of the anchor markup, between target and display text. -/
def anchorMid : List Char := "\" color=\"blue\">".toList

/-- The closing tag of the anchor markup. -/
def anchorClose : List Char := "</a>".toList

/-- The replacement `<a href="target" color="blue">display</a>`. -/
def anchor (tgt dsp : List Char) : List Char :=
  anchorOpen ++ tgt ++ anchorMid ++ dsp ++ anchorClose

/-- Step 1 of `process_content_pdf` (source line 116): substitute every
markdown match by its anchor. -/
def pdfStep1 (s : List Char) : List Char :=
  ((mdMatches s).1.map (fun plt => plt.1 ++ anchor plt.2.2 plt.2.1)).flatten ++ (mdMatches s).2

/-- The literal `<a ` that the open-anchor guard searches for. -/
def openMark : List Char := "<a ".toList

/-- Scan of the guard condition of `replace_link` (source line 122):
final state true iff the latest of the markers `<a ` / `</a>` to start
in the text is `<a ` (that is, `'<a ' in before` and no `'</a>'` at or
after `before.rfind('<a ')`). -/
def openAnchorGo : Bool → List Char → Bool
  | st, [] => st
  | st, c :: cs =>
    let st2 :=
      if openMark.isPrefixOf (c :: cs) then true
      else if anchorClose.isPrefixOf (c :: cs) then false
      else st
    openAnchorGo st2 cs

/-- Whether the text before a match leaves an anchor open. -/
def openAnchor (before : List Char) : Bool := openAnchorGo false before

/-- Step 2's substitution: each match is left unchanged when the guard
fires, else replaced by its anchor; `before` is the prefix of the
scanned string already passed (the string `replace_link` slices). -/
def renderUrl : List Char → List (List Char × List Char) → List Char
  | _, [] => []
  | before, (p, m) :: rest =>
    let rep := if openAnchor (before ++ p) then m else anchor (adjustMailto m) m
    p ++ rep ++ renderUrl (before ++ p ++ m) rest

/-- `process_content_pdf(content)` (source lines 114-129): markdown
substitution, then the guarded bare-link substitution over its output
(both passes scan the step-1 result, not the original input). -/
def process_content_pdf (s : List Char) : List Char :=
  let p1 := pdfStep1 s
  let um := urlMatches true [] p1
  renderUrl [] um.1 ++ um.2

/-- Split the input at the first `</a>`, dropping the tag. -/
def splitAtClose : List Char → List Char × List Char
  | [] => ([], [])
  | c :: cs =>
    if anchorClose.isPrefixOf (c :: cs) then ([], (c :: cs).drop 4)
    else
      let pr := splitAtClose cs
      (c :: pr.1, pr.2)

/-- Fuel-driven extraction of the (target, display) pairs of the anchor
elements of a rendered string: the adapter view of the PDF output,
comparable with `spanLinks` of the DOCX output. -/
def pdfLinksF : Nat → List Char → List (List Char × List Char)
  | 0, _ => []
  | f + 1, s =>
    if anchorOpen.isPrefixOf s then
      let r1 := s.drop 9
      let tgt := r1.takeWhile (fun c => c ≠ '"')
      let r2 := r1.dropWhile (fun c => c ≠ '"')
      if anchorMid.isPrefixOf r2 then
        let dr := splitAtClose (r2.drop 15)
        (tgt, dr.1) :: pdfLinksF f dr.2
      else
        match s with
        | [] => []
        | _ :: cs => pdfLinksF f cs
    else
      match s with
      | [] => []
      | _ :: cs => pdfLinksF f cs

/-- The hyperlinks of a rendered PDF content string. -/
def pdfLinks (s : List Char) : List (List Char × List Char) := pdfLinksF (s.length + 1) s

/-! ## `text_to_bullets` -/

/-- Python `text.split('\n')`. -/
def splitLines : List Char → List (List Char)
  | [] => [[]]
  | '\n' :: r => [] :: splitLines r
  | c :: r =>
    match splitLines r with
    | [] => [[c]]
    | l :: ls => (c :: l) :: ls

/-- Python `str.strip()`: drop leading and trailing whitespace. -/
def stripWS (l : List Char) : List Char :=
  ((l.dropWhile isSpaceChar).reverse.dropWhile isSpaceChar).reverse

/-- `text_to_bullets(text)` (source lines 131-135): empty input gives
the empty list; otherwise the stripped lines, whitespace-only lines
dropped. -/
def text_to_bullets (s : List Char) : List (List Char) :=
  if s = [] then []
  else ((splitLines s).map stripWS).filter (fun l => !l.isEmpty)

/-- Left-and-right trimming helper of `stripWS`: drop a trailing
whitespace run. -/
def dropTrail (l : List Char) : List Char := (l.reverse.dropWhile isSpaceChar).reverse

/-! # Theorems

## Decomposition of the markdown matcher -/

theorem mdMatchHere_some {s l t r : List Char}
    (h : mdMatchHere s = some (l, t, r)) :
    s = '[' :: (l ++ ']' :: '(' :: (t ++ ')' :: r)) ∧ l ≠ [] ∧ t ≠ [] := by
  cases s with
  | nil => simp [mdMatchHere] at h
  | cons c cs =>
    simp only [mdMatchHere] at h
    by_cases hc : c = '['
    case neg => rw [if_neg hc] at h; exact Option.noConfusion h
    rw [if_pos hc] at h
    subst hc
    by_cases hlbl : cs.takeWhile (fun c => c ≠ ']') = []
    case pos => rw [if_pos hlbl] at h; exact Option.noConfusion h
    rw [if_neg hlbl] at h
    by_cases hrest : ((cs.dropWhile (fun c => c ≠ ']')).take 2) = [']', '(']
    case neg => rw [if_neg hrest] at h; exact Option.noConfusion h
    rw [if_pos hrest] at h
    by_cases htgt :
        (((cs.dropWhile (fun c => c ≠ ']')).drop 2).takeWhile (fun c => c ≠ ')')) = []
    case pos => rw [if_pos htgt] at h; exact Option.noConfusion h
    rw [if_neg htgt] at h
    by_cases hrest2 :
        ((((cs.dropWhile (fun c => c ≠ ']')).drop 2).dropWhile (fun c => c ≠ ')')).take 1)
          = [')']
    case neg => rw [if_neg hrest2] at h; exact Option.noConfusion h
    rw [if_pos hrest2] at h
    simp only [Option.some.injEq, Prod.mk.injEq] at h
    obtain ⟨rfl, rfl, rfl⟩ := h
    refine ⟨?_, hlbl, htgt⟩
    have e1 := List.takeWhile_append_dropWhile (fun c => c ≠ ']') cs
    have e2 := List.take_append_drop 2 (cs.dropWhile (fun c => c ≠ ']'))
    have e3 := List.takeWhile_append_dropWhile (fun c => c ≠ ')')
      ((cs.dropWhile (fun c => c ≠ ']')).drop 2)
    have e4 := List.take_append_drop 1
      (((cs.dropWhile (fun c => c ≠ ']')).drop 2).dropWhile (fun c => c ≠ ')'))
    rw [hrest] at e2
    rw [hrest2] at e4
    rw [← e4] at e3
    rw [← e3] at e2
    rw [← e2] at e1
    conv_lhs => rw [← e1]
    simp [List.append_assoc]

theorem findMd_some : ∀ {s p l t r : List Char}, findMd s = some (p, l, t, r) →
    s = p ++ '[' :: (l ++ ']' :: '(' :: (t ++ ')' :: r)) ∧ l ≠ [] ∧ t ≠ [] := by
  intro s
  induction s with
  | nil => intro p l t r h; simp [findMd] at h
  | cons c cs ih =>
    intro p l t r h
    unfold findMd at h
    split at h
    next l' t' r' hm =>
      simp only [Option.some.injEq, Prod.mk.injEq] at h
      obtain ⟨rfl, rfl, rfl, rfl⟩ := h
      obtain ⟨hs, hl, ht⟩ := mdMatchHere_some hm
      exact ⟨by rw [List.nil_append]; exact hs, hl, ht⟩
    next =>
      split at h
      next p' l' t' r' hf =>
        simp only [Option.some.injEq, Prod.mk.injEq] at h
        obtain ⟨rfl, rfl, rfl, rfl⟩ := h
        obtain ⟨hs, hl, ht⟩ := ih hf
        exact ⟨by rw [List.cons_append, ← hs], hl, ht⟩
      next => exact absurd h (by simp)

theorem findMd_length {s p l t r : List Char} (h : findMd s = some (p, l, t, r)) :
    r.length < s.length := by
  obtain ⟨hs, -, -⟩ := findMd_some h
  subst hs
  simp [List.length_append]
  omega

theorem mdMatchesF_congr : ∀ f g s, s.length < f → s.length < g →
    mdMatchesF f s = mdMatchesF g s := by
  intro f
  induction f with
  | zero => intro g s hf _; exact absurd hf (Nat.not_lt_zero _)
  | succ f ih =>
    intro g s hf hg
    cases g with
    | zero => exact absurd hg (Nat.not_lt_zero _)
    | succ g =>
      simp only [mdMatchesF]
      cases hmd : findMd s with
      | none => rfl
      | some plt =>
        obtain ⟨p, l, t, r⟩ := plt
        have hr := findMd_length hmd
        dsimp only
        rw [ih g r (by omega) (by omega)]

/-- `mdMatches` at an input with no markdown match. -/
theorem mdMatches_none {s : List Char} (h : findMd s = none) : mdMatches s = ([], s) := by
  unfold mdMatches
  simp only [mdMatchesF, h]

/-- The step `mdMatches` takes at its leftmost match. -/
theorem mdMatches_cons {s p l t r : List Char} (h : findMd s = some (p, l, t, r)) :
    mdMatches s = ((p, l, t) :: (mdMatches r).1, (mdMatches r).2) := by
  have hr := findMd_length h
  have h1 : mdMatchesF (s.length + 1) s
      = ((p, l, t) :: (mdMatchesF s.length r).1, (mdMatchesF s.length r).2) := by
    conv_lhs => rw [mdMatchesF, h]
  have hc : mdMatchesF s.length r = mdMatchesF (r.length + 1) r :=
    mdMatchesF_congr _ _ _ (by omega) (by omega)
  rw [hc] at h1
  exact h1

/-! ## Decomposition of the bare-link matcher -/

theorem matchHttp_some {s m r : List Char} (h : matchHttp s = some (m, r)) :
    s = m ++ r ∧ m ≠ [] := by
  simp only [matchHttp] at h
  by_cases h8 : List.isPrefixOf "https://".toList s
  · rw [if_pos h8] at h
    by_cases hrun : (s.drop 8).takeWhile (fun c => !isSpaceChar c) = []
    · rw [if_pos hrun] at h; exact Option.noConfusion h
    · rw [if_neg hrun] at h
      simp only [Option.some.injEq, Prod.mk.injEq] at h
      obtain ⟨rfl, rfl⟩ := h
      refine ⟨?_, by simp⟩
      obtain ⟨u, hu⟩ := List.isPrefixOf_iff_prefix.mp h8
      have hdrop : s.drop 8 = u := by rw [← hu]; exact List.drop_left' (by rfl)
      rw [hdrop, List.append_assoc, List.takeWhile_append_dropWhile]
      exact hu.symm
  · rw [if_neg h8] at h
    by_cases h7 : List.isPrefixOf "http://".toList s
    · rw [if_pos h7] at h
      by_cases hrun : (s.drop 7).takeWhile (fun c => !isSpaceChar c) = []
      · rw [if_pos hrun] at h; exact Option.noConfusion h
      · rw [if_neg hrun] at h
        simp only [Option.some.injEq, Prod.mk.injEq] at h
        obtain ⟨rfl, rfl⟩ := h
        refine ⟨?_, by simp⟩
        obtain ⟨u, hu⟩ := List.isPrefixOf_iff_prefix.mp h7
        have hdrop : s.drop 7 = u := by rw [← hu]; exact List.drop_left' (by rfl)
        rw [hdrop, List.append_assoc, List.takeWhile_append_dropWhile]
        exact hu.symm
    · rw [if_neg h7] at h; exact Option.noConfusion h

theorem matchMailto_some {s m r : List Char} (h : matchMailto s = some (m, r)) :
    s = m ++ r ∧ m ≠ [] := by
  simp only [matchMailto] at h
  by_cases h7 : List.isPrefixOf "mailto:".toList s
  · rw [if_pos h7] at h
    by_cases hrun : (s.drop 7).takeWhile (fun c => !isSpaceChar c) = []
    · rw [if_pos hrun] at h; exact Option.noConfusion h
    · rw [if_neg hrun] at h
      simp only [Option.some.injEq, Prod.mk.injEq] at h
      obtain ⟨rfl, rfl⟩ := h
      refine ⟨?_, by simp⟩
      obtain ⟨u, hu⟩ := List.isPrefixOf_iff_prefix.mp h7
      have hdrop : s.drop 7 = u := by rw [← hu]; exact List.drop_left' (by rfl)
      rw [hdrop, List.append_assoc, List.takeWhile_append_dropWhile]
      exact hu.symm
  · rw [if_neg h7] at h; exact Option.noConfusion h

theorem tldTake_some {pdf : Bool} {r t rest : List Char} (h : tldTake pdf r = some (t, rest)) :
    r = t ++ rest := by
  simp only [tldTake] at h
  by_cases h2 : (r.takeWhile isTldChar).length < 2
  · rw [if_pos h2] at h; exact Option.noConfusion h
  · rw [if_neg h2] at h
    by_cases hq : pdf && ((r.dropWhile isTldChar).head? == some '"')
    · rw [if_pos hq] at h
      by_cases h3 : 3 ≤ (r.takeWhile isTldChar).length
      · rw [if_pos h3] at h
        simp only [Option.some.injEq, Prod.mk.injEq] at h
        obtain ⟨rfl, rfl⟩ := h
        rw [← List.append_assoc, List.take_append_drop, List.takeWhile_append_dropWhile]
      · rw [if_neg h3] at h; exact Option.noConfusion h
    · rw [if_neg hq] at h
      simp only [Option.some.injEq, Prod.mk.injEq] at h
      obtain ⟨rfl, rfl⟩ := h
      rw [List.takeWhile_append_dropWhile]

theorem emailDomain_some {pdf : Bool} : ∀ {k : Nat} {r dom rest : List Char},
    emailDomain pdf k r = some (dom, rest) → r = dom ++ rest ∧ dom ≠ [] := by
  intro k
  induction k with
  | zero => intro r dom rest h; simp [emailDomain] at h
  | succ k ih =>
    intro r dom rest h
    simp only [emailDomain] at h
    by_cases hdot : ((r.drop (k + 1)).take 1) = ['.']
    · rw [if_pos hdot] at h
      cases htld : tldTake pdf (r.drop (k + 2)) with
      | some tr =>
        obtain ⟨t, rest0⟩ := tr
        rw [htld] at h
        simp only [Option.some.injEq, Prod.mk.injEq] at h
        obtain ⟨rfl, rfl⟩ := h
        refine ⟨?_, by simp⟩
        have e2 := tldTake_some htld
        have e0 := List.take_append_drop (k + 1) r
        have e1 := List.take_append_drop 1 (r.drop (k + 1))
        have e3 : (r.drop (k + 1)).drop 1 = r.drop (k + 2) := by rw [List.drop_drop]
        rw [hdot, e3, e2] at e1
        rw [← e1] at e0
        conv_lhs => rw [← e0]
        simp [List.append_assoc]
      | none =>
        rw [htld] at h
        exact ih h
    · rw [if_neg hdot] at h
      exact ih h

theorem matchEmail_some {pdf : Bool} {prev : Option Char} {s m r : List Char}
    (h : matchEmail pdf prev s = some (m, r)) : s = m ++ r ∧ m ≠ [] := by
  cases s with
  | nil => simp [matchEmail] at h
  | cons c cs =>
    simp only [matchEmail] at h
    by_cases hb : !boundaryOk prev c
    · rw [if_pos hb] at h; exact Option.noConfusion h
    · rw [if_neg hb] at h
      by_cases hlo : (c :: cs).takeWhile isLocalChar = []
      · rw [if_pos hlo] at h; exact Option.noConfusion h
      · rw [if_neg hlo] at h
        by_cases hat : (((c :: cs).dropWhile isLocalChar).take 1) = ['@']
        · rw [if_pos hat] at h
          cases hd : emailDomain pdf
              ((((c :: cs).dropWhile isLocalChar).drop 1).takeWhile isDomainChar).length
              (((c :: cs).dropWhile isLocalChar).drop 1) with
          | some dr =>
            obtain ⟨dom, r2⟩ := dr
            rw [hd] at h
            simp only [Option.some.injEq, Prod.mk.injEq] at h
            obtain ⟨rfl, rfl⟩ := h
            obtain ⟨e2, hdom⟩ := emailDomain_some hd
            refine ⟨?_, by simp [hlo]⟩
            have e0 := List.takeWhile_append_dropWhile isLocalChar (c :: cs)
            have e1 := List.take_append_drop 1 ((c :: cs).dropWhile isLocalChar)
            rw [hat, e2] at e1
            rw [← e1] at e0
            conv_lhs => rw [← e0]
            simp [List.append_assoc]
          | none => rw [hd] at h; exact Option.noConfusion h
        · rw [if_neg hat] at h; exact Option.noConfusion h

theorem urlHere_some {pdf : Bool} {rctx s m r : List Char}
    (h : urlHere pdf rctx s = some (m, r)) : s = m ++ r ∧ m ≠ [] := by
  unfold urlHere at h
  by_cases hlb : pdf && (rctx.take 6 == hrefRev)
  · rw [if_pos hlb] at h; exact Option.noConfusion h
  · rw [if_neg hlb] at h
    cases hh : matchHttp s with
    | some mr =>
      rw [hh] at h
      simp only [Option.some.injEq] at h
      subst h
      exact matchHttp_some hh
    | none =>
      rw [hh] at h
      cases hm : matchMailto s with
      | some mr =>
        rw [hm] at h
        simp only [Option.some.injEq] at h
        subst h
        exact matchMailto_some hm
      | none =>
        rw [hm] at h
        exact matchEmail_some h

theorem findUrl_some {pdf : Bool} : ∀ {s rctx p m r : List Char},
    findUrl pdf rctx s = some (p, m, r) → s = p ++ m ++ r ∧ m ≠ [] := by
  intro s
  induction s with
  | nil => intro rctx p m r h; simp [findUrl] at h
  | cons c cs ih =>
    intro rctx p m r h
    unfold findUrl at h
    cases hu : urlHere pdf rctx (c :: cs) with
    | some mr =>
      rw [hu] at h
      obtain ⟨m0, r0⟩ := mr
      simp only [Option.some.injEq, Prod.mk.injEq] at h
      obtain ⟨rfl, rfl, rfl⟩ := h
      obtain ⟨hs, hm⟩ := urlHere_some hu
      exact ⟨by rw [List.nil_append]; exact hs, hm⟩
    | none =>
      rw [hu] at h
      cases hf : findUrl pdf (c :: rctx) cs with
      | some pmr =>
        rw [hf] at h
        obtain ⟨p0, m0, r0⟩ := pmr
        simp only [Option.some.injEq, Prod.mk.injEq] at h
        obtain ⟨rfl, rfl, rfl⟩ := h
        obtain ⟨hs, hm⟩ := ih hf
        refine ⟨?_, hm⟩
        simp [hs, List.append_assoc]
      | none => rw [hf] at h; exact Option.noConfusion h

theorem findUrl_length {pdf : Bool} {rctx s p m r : List Char}
    (h : findUrl pdf rctx s = some (p, m, r)) : r.length < s.length := by
  obtain ⟨hs, hm⟩ := findUrl_some h
  subst hs
  have hpos := List.length_pos.mpr hm
  simp [List.length_append]
  omega

theorem urlMatchesF_congr {pdf : Bool} : ∀ f g rctx s, s.length < f → s.length < g →
    urlMatchesF pdf f rctx s = urlMatchesF pdf g rctx s := by
  intro f
  induction f with
  | zero => intro g rctx s hf _; exact absurd hf (Nat.not_lt_zero _)
  | succ f ih =>
    intro g rctx s hf hg
    cases g with
    | zero => exact absurd hg (Nat.not_lt_zero _)
    | succ g =>
      simp only [urlMatchesF]
      cases hu : findUrl pdf rctx s with
      | none => rfl
      | some pmr =>
        obtain ⟨p, m, r⟩ := pmr
        have hr := findUrl_length hu
        dsimp only
        rw [ih g ((p ++ m).reverse ++ rctx) r (by omega) (by omega)]

/-- `urlMatches` at an input with no bare-link match. -/
theorem urlMatches_none {pdf : Bool} {rctx s : List Char} (h : findUrl pdf rctx s = none) :
    urlMatches pdf rctx s = ([], s) := by
  unfold urlMatches
  simp only [urlMatchesF, h]

/-- The step `urlMatches` takes at its leftmost match. -/
theorem urlMatches_cons {pdf : Bool} {rctx s p m r : List Char}
    (h : findUrl pdf rctx s = some (p, m, r)) :
    urlMatches pdf rctx s
      = ((p, m) :: (urlMatches pdf ((p ++ m).reverse ++ rctx) r).1,
         (urlMatches pdf ((p ++ m).reverse ++ rctx) r).2) := by
  have hr := findUrl_length h
  have h1 : urlMatchesF pdf (s.length + 1) rctx s
      = ((p, m) :: (urlMatchesF pdf s.length ((p ++ m).reverse ++ rctx) r).1,
         (urlMatchesF pdf s.length ((p ++ m).reverse ++ rctx) r).2) := by
    conv_lhs => rw [urlMatchesF, h]
  have hc : urlMatchesF pdf s.length ((p ++ m).reverse ++ rctx) r
      = urlMatchesF pdf (r.length + 1) ((p ++ m).reverse ++ rctx) r :=
    urlMatchesF_congr _ _ _ _ (by omega) (by omega)
  rw [hc] at h1
  exact h1

/-! ## The two passes in closed form -/

theorem foldl_md (ms : List (List Char × List Char × List Char)) :
    ∀ para : List Span,
      ms.foldl (fun pa plt => add_hyperlink (addRun pa plt.1) plt.2.2 plt.2.1) para
        = para ++ mdRender ms := by
  induction ms with
  | nil => intro para; simp [mdRender]
  | cons x xs ih =>
    intro para
    simp only [List.foldl_cons]
    rw [ih]
    simp [mdRender, add_hyperlink, addRun, List.append_assoc]

theorem foldl_url (us : List (List Char × List Char)) :
    ∀ para : List Span,
      us.foldl (fun pa pm => add_hyperlink (addRun pa pm.1) (adjustMailto pm.2) pm.2) para
        = para ++ urlRender us := by
  induction us with
  | nil => intro para; simp [urlRender]
  | cons x xs ih =>
    intro para
    simp only [List.foldl_cons]
    rw [ih]
    simp [urlRender, add_hyperlink, addRun, List.append_assoc]

/-- `add_text_with_links` in closed form: the paragraph's previous
content, then pass 1's spans, then pass 2's spans over the residue, then
the final plain run. -/
theorem atwl_eq (para : List Span) (text : List Char) :
    add_text_with_links para text
      = para ++ (mdRender (mdMatches text).1
          ++ (urlRender (urlMatches false [] (mdMatches text).2).1
            ++ [Span.plain (urlMatches false [] (mdMatches text).2).2])) := by
  unfold add_text_with_links
  dsimp only
  rw [foldl_md, foldl_url]
  simp [addRun, List.append_assoc]

/-! ## Losslessness and nonemptiness of the matches -/

theorem urlMatches_flatten (pdf : Bool) :
    ∀ n rctx s, s.length ≤ n →
      ((urlMatches pdf rctx s).1.map (fun pm => pm.1 ++ pm.2)).flatten
          ++ (urlMatches pdf rctx s).2 = s := by
  intro n
  induction n with
  | zero =>
    intro rctx s hs
    have hnil : s = [] := List.length_eq_zero.mp (Nat.le_zero.mp hs)
    subst hnil
    rw [urlMatches_none (show findUrl pdf rctx [] = none from rfl)]
    simp
  | succ n ih =>
    intro rctx s hs
    cases hu : findUrl pdf rctx s with
    | none => rw [urlMatches_none hu]; simp
    | some pmr =>
      obtain ⟨p, m, r⟩ := pmr
      rw [urlMatches_cons hu]
      obtain ⟨hdec, hm⟩ := findUrl_some hu
      have hr := findUrl_length hu
      dsimp only
      rw [List.map_cons, List.flatten_cons, List.append_assoc]
      rw [ih ((p ++ m).reverse ++ rctx) r (by omega)]
      rw [hdec, List.append_assoc]

theorem urlMatches_ne {pdf : Bool} :
    ∀ n rctx s, s.length ≤ n → ∀ pm ∈ (urlMatches pdf rctx s).1, pm.2 ≠ ([] : List Char) := by
  intro n
  induction n with
  | zero =>
    intro rctx s hs
    have hnil : s = [] := List.length_eq_zero.mp (Nat.le_zero.mp hs)
    subst hnil
    rw [urlMatches_none (show findUrl pdf rctx [] = none from rfl)]
    simp
  | succ n ih =>
    intro rctx s hs
    cases hu : findUrl pdf rctx s with
    | none => rw [urlMatches_none hu]; simp
    | some pmr =>
      obtain ⟨p, m, r⟩ := pmr
      rw [urlMatches_cons hu]
      obtain ⟨-, hm⟩ := findUrl_some hu
      have hr := findUrl_length hu
      dsimp only
      intro pm hmem
      rcases List.mem_cons.mp hmem with heq | hmem2
      · subst heq; exact hm
      · exact ih ((p ++ m).reverse ++ rctx) r (by omega) pm hmem2

theorem mdMatches_ne :
    ∀ n s, s.length ≤ n → ∀ plt ∈ (mdMatches s).1, plt.2.1 ≠ ([] : List Char) := by
  intro n
  induction n with
  | zero =>
    intro s hs
    have hnil : s = [] := List.length_eq_zero.mp (Nat.le_zero.mp hs)
    subst hnil
    rw [mdMatches_none (show findMd [] = none from rfl)]
    simp
  | succ n ih =>
    intro s hs
    cases hmd : findMd s with
    | none => rw [mdMatches_none hmd]; simp
    | some pltr =>
      obtain ⟨p, l, t, r⟩ := pltr
      rw [mdMatches_cons hmd]
      obtain ⟨-, hl, -⟩ := findMd_some hmd
      have hr := findMd_length hmd
      dsimp only
      intro plt hmem
      rcases List.mem_cons.mp hmem with heq | hmem2
      · subst heq; exact hl
      · exact ih r (by omega) plt hmem2

/-! ## Display-text concatenation -/

theorem concatText_append (a b : List Span) :
    concatText (a ++ b) = concatText a ++ concatText b := by
  simp [concatText]

theorem concatText_mdRender (ms : List (List Char × List Char × List Char))
    (hne : ∀ plt ∈ ms, plt.2.1 ≠ ([] : List Char)) :
    concatText (mdRender ms) = (ms.map (fun plt => plt.1 ++ plt.2.1)).flatten := by
  induction ms with
  | nil => simp [mdRender, concatText]
  | cons x xs ih =>
    have hx : x.2.1 ≠ [] := hne x (List.mem_cons_self _ _)
    have ih2 := ih (fun plt hm => hne plt (List.mem_cons_of_mem _ hm))
    simp only [mdRender, List.map_cons, List.flatten_cons] at ih2 ⊢
    rw [concatText_append, ih2]
    simp [concatText, spanText, dispOf, hx, List.append_assoc]

theorem concatText_urlRender (us : List (List Char × List Char))
    (hne : ∀ pm ∈ us, pm.2 ≠ ([] : List Char)) :
    concatText (urlRender us) = (us.map (fun pm => pm.1 ++ pm.2)).flatten := by
  induction us with
  | nil => simp [urlRender, concatText]
  | cons x xs ih =>
    have hx : x.2 ≠ [] := hne x (List.mem_cons_self _ _)
    have ih2 := ih (fun pm hm => hne pm (List.mem_cons_of_mem _ hm))
    simp only [urlRender, List.map_cons, List.flatten_cons] at ih2 ⊢
    rw [concatText_append, ih2]
    simp [concatText, spanText, dispOf, hx, List.append_assoc]

/-- The step `docxSpans` takes at a markdown match: one plain run with
the text before the match, one hyperlink with the label as display text
and the target as url (verbatim), then the annotation of the rest. -/
theorem docxSpans_step {s p l t r : List Char} (h : findMd s = some (p, l, t, r)) :
    docxSpans s = Span.plain p :: Span.link l t :: docxSpans r := by
  have hl : l ≠ [] := (findMd_some h).2.1
  unfold docxSpans
  rw [atwl_eq, atwl_eq, mdMatches_cons h]
  dsimp only
  simp [mdRender, dispOf, hl, List.append_assoc]

/-! ## Whitespace stripping -/

theorem dropWhile_twice {α : Type} (p : α → Bool) :
    ∀ l : List α, (l.dropWhile p).dropWhile p = l.dropWhile p := by
  intro l
  induction l with
  | nil => rfl
  | cons c cs ih =>
    by_cases hc : p c
    · simp [List.dropWhile_cons, hc, ih]
    · simp [List.dropWhile_cons, hc]

theorem dropTrail_dropTrail (l : List Char) : dropTrail (dropTrail l) = dropTrail l := by
  unfold dropTrail
  rw [List.reverse_reverse, dropWhile_twice]

theorem dropTrail_front (l : List Char) : dropTrail l <+: l := by
  have h : l.reverse.dropWhile isSpaceChar <:+ l.reverse :=
    List.dropWhile_suffix isSpaceChar
  obtain ⟨u, hu⟩ := h
  refine ⟨u.reverse, ?_⟩
  unfold dropTrail
  rw [← List.reverse_append, hu, List.reverse_reverse]

theorem stripWS_idem (l : List Char) : stripWS (stripWS l) = stripWS l := by
  by_cases hnil : stripWS l = []
  · rw [hnil]; rfl
  · obtain ⟨u, hu⟩ := dropTrail_front (l.dropWhile isSpaceChar)
    cases hdt : stripWS l with
    | nil => exact absurd hdt hnil
    | cons a as =>
      have hda : dropTrail (l.dropWhile isSpaceChar) = a :: as := hdt
      have hwa : (l.dropWhile isSpaceChar).head? = some a := by
        rw [← hu, hda]; rfl
      have ha : isSpaceChar a = false := by
        have hh := List.head?_dropWhile_not isSpaceChar l
        rw [hwa] at hh
        exact hh
      have hdw : (a :: as).dropWhile isSpaceChar = a :: as := by
        simp [List.dropWhile_cons, ha]
      show dropTrail ((a :: as).dropWhile isSpaceChar) = a :: as
      rw [hdw, ← hda, dropTrail_dropTrail]

theorem text_to_bullets_eq (s : List Char) :
    text_to_bullets s = ((splitLines s).map stripWS).filter (fun l => !l.isEmpty) := by
  unfold text_to_bullets
  by_cases hs : s = []
  · subst hs; rw [if_pos rfl]; rfl
  · rw [if_neg hs]

/-! ## The claims -/

/-- C1: the claim says concatenating the display texts of the spans of
`annotate s` reproduces `s` exactly for every input; on the code this
fails for markdown links (their display text is the label, not the
consumed `[label](target)`), so the amended statement holds:
concatenation yields `s` with every markdown match replaced by its
label, hence exactly `s` whenever `s` has no markdown match. -/
theorem C1_concat_coverage (s : List Char) :
    concatText (docxSpans s) = mdStrip s
      ∧ (findMd s = none → concatText (docxSpans s) = s) := by
  have h1 : concatText (docxSpans s)
      = (((mdMatches s).1.map (fun plt => plt.1 ++ plt.2.1)).flatten)
        ++ ((((urlMatches false [] (mdMatches s).2).1.map
              (fun pm => pm.1 ++ pm.2)).flatten)
            ++ (urlMatches false [] (mdMatches s).2).2) := by
    unfold docxSpans
    rw [atwl_eq]
    simp only [List.nil_append]
    rw [concatText_append, concatText_append]
    rw [concatText_mdRender _ (mdMatches_ne s.length s le_rfl)]
    rw [concatText_urlRender _ (urlMatches_ne (mdMatches s).2.length [] _ le_rfl)]
    simp [concatText, spanText]
  have h2 := urlMatches_flatten false (mdMatches s).2.length [] (mdMatches s).2 le_rfl
  have hmain : concatText (docxSpans s) = mdStrip s := by
    rw [h1, h2]; rfl
  refine ⟨hmain, fun hnone => ?_⟩
  rw [hmain]
  unfold mdStrip
  rw [mdMatches_none hnone]
  simp

/-- Witness for C1 at a concrete markdown-free input. -/
theorem C1_concat_coverage_witness :
    concatText (docxSpans ("just text".toList)) = "just text".toList :=
  (C1_concat_coverage _).2 (by decide)

/-- Counterexample to C1 as stated: for the input `[x](y)` the
concatenated display text is `x`, not the input. -/
theorem C1_concat_coverage_cx :
    concatText (docxSpans ("[x](y)".toList)) ≠ "[x](y)".toList := by decide

/-- C2: the claim says pass 2 scans the whole original input in both
paths, so in `see https://x.io jane@co.com then [x](http://y)` both bare
tokens become links.  The DOCX path (`add_text_with_links`) scans only
the text after the last markdown match, leaving both bare tokens plain,
while the PDF path wraps all three: evaluation at the failing input. -/
theorem C2_docx_residue_eval :
    (docxSpans ("see https://x.io jane@co.com then [x](http://y)".toList)).filter isLink
        = [Span.link "x".toList "http://y".toList]
    ∧ Span.link "https://x.io".toList "https://x.io".toList
        ∉ docxSpans ("see https://x.io jane@co.com then [x](http://y)".toList)
    ∧ process_content_pdf ("see https://x.io jane@co.com then [x](http://y)".toList)
        = ("see <a href=\"https://x.io\" color=\"blue\">https://x.io</a> "
            ++ "<a href=\"mailto:jane@co.com\" color=\"blue\">jane@co.com</a> then "
            ++ "<a href=\"http://y\" color=\"blue\">x</a>").toList :=
  ⟨by decide, by decide, by decide⟩

/-- C3: the claim says a bare token inside the consumed extent of a
markdown link is never emitted as a second Link span.  It holds for the
DOCX path and for the claim's own example in both paths (first two
conjuncts), but the PDF guard is defeated when the markdown target
contains a literal `</a>`: for `[a](x</a> b@c.com)` the email inside the
target is wrapped in a second, nested anchor (and truncated to `b@c.co`
by the lookahead) — evaluation at the failing input, third conjunct. -/
theorem C3_pdf_guard_eval :
    process_content_pdf ("[Contact](jane@co.com)".toList)
        = "<a href=\"jane@co.com\" color=\"blue\">Contact</a>".toList
    ∧ spanLinks (docxSpans ("[Contact](jane@co.com)".toList))
        = [("jane@co.com".toList, "Contact".toList)]
    ∧ process_content_pdf ("[a](x</a> b@c.com)".toList)
        = ("<a href=\"x</a> <a href=\"mailto:b@c.co\" color=\"blue\">b@c.co</a>m\""
            ++ " color=\"blue\">a</a>").toList :=
  ⟨by decide, by decide, by decide⟩

/-- C4: annotating `reach jane@co.com now` gives exactly three spans —
plain `reach `, a link with display text `jane@co.com` and target
`mailto:jane@co.com`, and plain ` now`; the PDF path renders the same
single anchor. -/
theorem C4_bare_email_example :
    docxSpans ("reach jane@co.com now".toList)
      = [Span.plain "reach ".toList,
         Span.link "jane@co.com".toList "mailto:jane@co.com".toList,
         Span.plain " now".toList]
    ∧ process_content_pdf ("reach jane@co.com now".toList)
      = "reach <a href=\"mailto:jane@co.com\" color=\"blue\">jane@co.com</a> now".toList :=
  ⟨by decide, by decide⟩

/-- C5: every markdown-style match `[label](target)` becomes exactly one
Link span, display text the label and target verbatim (first conjunct:
the leftmost match contributes exactly one plain and one link span, and
the rest is the annotation of the remainder); the example
`[x](http://a.com)` yields exactly one link in the DOCX path and exactly
its anchor in the PDF path. -/
theorem C5_markdown_links :
    (∀ s p l t r : List Char, findMd s = some (p, l, t, r) →
        docxSpans s = Span.plain p :: Span.link l t :: docxSpans r)
    ∧ (docxSpans ("[x](http://a.com)".toList)).filter isLink
        = [Span.link "x".toList "http://a.com".toList]
    ∧ process_content_pdf ("[x](http://a.com)".toList)
        = "<a href=\"http://a.com\" color=\"blue\">x</a>".toList :=
  ⟨fun _ _ _ _ _ h => docxSpans_step h, by decide, by decide⟩

/-- Witness for C5 at the claim's own example. -/
theorem C5_markdown_links_witness :
    docxSpans ("[x](http://a.com)".toList)
      = Span.plain [] :: Span.link "x".toList "http://a.com".toList :: docxSpans [] :=
  C5_markdown_links.1 _ _ _ _ _ (by decide)

/-- C6: the claim says the two paths carry the same ordered hyperlinks;
on `see https://x.io jane@co.com then [x](http://y)` the PDF path emits
three anchors while the DOCX path emits one, so the link sequences
differ — evaluation at the failing input. -/
theorem C6_paths_diverge_eval :
    pdfLinks (process_content_pdf ("see https://x.io jane@co.com then [x](http://y)".toList))
        = [("https://x.io".toList, "https://x.io".toList),
           ("mailto:jane@co.com".toList, "jane@co.com".toList),
           ("http://y".toList, "x".toList)]
    ∧ spanLinks (docxSpans ("see https://x.io jane@co.com then [x](http://y)".toList))
        = [("http://y".toList, "x".toList)]
    ∧ pdfLinks (process_content_pdf ("see https://x.io jane@co.com then [x](http://y)".toList))
        ≠ spanLinks (docxSpans ("see https://x.io jane@co.com then [x](http://y)".toList)) :=
  ⟨by decide, by decide, by decide⟩

/-- C7: the claim says `annotate("")` is empty and no empty Plain span
is ever emitted; the code appends a run for every (possibly empty)
inter-match gap and a final run, so `annotate("")` is one empty plain
run, and adjacent markdown matches are separated by exactly one empty
plain run (amended statement). -/
theorem C7_empty_spans :
    docxSpans [] = [Span.plain []]
    ∧ (∀ s p l t r l2 t2 r2 : List Char,
        findMd s = some (p, l, t, r) → findMd r = some ([], l2, t2, r2) →
        docxSpans s
          = Span.plain p :: Span.link l t
              :: Span.plain [] :: Span.link l2 t2 :: docxSpans r2) := by
  refine ⟨by decide, ?_⟩
  intro s p l t r l2 t2 r2 h1 h2
  rw [docxSpans_step h1, docxSpans_step h2]

/-- Witness for C7 at two adjacent markdown links. -/
theorem C7_empty_spans_witness :
    docxSpans ("[a](b)[c](d)".toList)
      = Span.plain [] :: Span.link "a".toList "b".toList
          :: Span.plain [] :: Span.link "c".toList "d".toList :: docxSpans [] :=
  C7_empty_spans.2 ("[a](b)[c](d)".toList) [] "a".toList "b".toList
    ("[c](d)".toList) "c".toList "d".toList [] (by decide) (by decide)

/-- Counterexample to C7 as stated: annotating the empty string emits
one (empty) plain run, not the empty sequence. -/
theorem C7_empty_spans_cx : docxSpans [] ≠ ([] : List Span) := by decide

/-- C8: the annotator is pure — what `add_text_with_links` appends to a
paragraph is a function of the text alone: the result is the previous
content followed by the annotation of the text from an empty paragraph,
so the emitted suffix is independent of any earlier calls. -/
theorem C8_pure_append (para : List Span) (text : List Char) :
    add_text_with_links para text = para ++ add_text_with_links [] text
    ∧ (add_text_with_links para text).drop para.length = add_text_with_links [] text := by
  have h : add_text_with_links para text = para ++ add_text_with_links [] text := by
    rw [atwl_eq, atwl_eq]
    simp [List.append_assoc]
  exact ⟨h, by rw [h]; exact List.drop_left _ _⟩

/-- C9: the annotator is total (the embedding is a total function) and
malformed syntax degrades to plain text: with no markdown match and no
bare-link match the whole input becomes a single Plain span. -/
theorem C9_total_degrade (s : List Char) (h1 : findMd s = none)
    (h2 : findUrl false [] s = none) :
    docxSpans s = [Span.plain s] := by
  unfold docxSpans
  rw [atwl_eq, mdMatches_none h1]
  dsimp only
  rw [urlMatches_none h2]
  dsimp only
  simp [mdRender, urlRender]

/-- Witness for C9 at the claim's malformed input `[label(no-close`. -/
theorem C9_total_degrade_witness :
    docxSpans ("[label(no-close".toList) = [Span.plain ("[label(no-close".toList)] :=
  C9_total_degrade _ (by decide) (by decide)

/-- C10: `text_to_bullets` returns the newline-separated lines stripped
of surrounding whitespace with whitespace-only lines removed, in order;
empty input gives the empty list, and every returned element is
nonempty and already stripped. -/
theorem C10_text_to_bullets :
    text_to_bullets [] = []
    ∧ (∀ s, text_to_bullets s
        = ((splitLines s).map stripWS).filter (fun l => !l.isEmpty))
    ∧ (∀ s l, l ∈ text_to_bullets s → l ≠ [] ∧ stripWS l = l) := by
  refine ⟨rfl, fun s => text_to_bullets_eq s, ?_⟩
  intro s l hl
  rw [text_to_bullets_eq] at hl
  obtain ⟨hmem, hpred⟩ := List.mem_filter.mp hl
  obtain ⟨y, hy, rfl⟩ := List.mem_map.mp hmem
  constructor
  · intro hc
    rw [hc] at hpred
    simp at hpred
  · exact stripWS_idem y

/-- Witness for C10 at a concrete multi-line input. -/
theorem C10_text_to_bullets_witness :
    "ab".toList ≠ [] ∧ stripWS "ab".toList = "ab".toList :=
  C10_text_to_bullets.2.2 ("  ab \n ".toList) ("ab".toList) (by decide)
